import Mathlib

/-!
Verification of the transactional key-value store (journals, composite
views, the multi-version commit protocol, the lock registry and the
transaction factory) against its sources.

Modelling conventions, each traced to the Python sources:
* A Python dict is an insertion-ordered association list `List (α × β)`
  with at most one entry per key: assignment updates an existing entry in
  place (keeping its position) or appends a new one at the end, lookup
  takes the first entry with the key.
* A value cell (`src/src/domain/core.py`, class `Void`) is either a plain
  value or the tombstone `Void`; two tombstones compare equal because
  `Void.__eq__` tests `isinstance(other, Void)`.
* A `CompositeJournal` (`src/src/generics/journals.py`) wraps
  `collections.ChainMap`: lookup scans the inner journals in declared
  order and returns the first cell found; iteration builds a dict by
  updating with the key sets of the maps from last to first, so each key
  appears once; truthiness and raw length count the distinct keys.
  A chain whose member is itself a chain behaves exactly like the
  flattened chain, so nested composites are modelled as flat lists.
-/

namespace TxDict

/-- A cell stored under a key in a journal: a plain value or the
tombstone written by `Void()` in `src/src/domain/core.py`. -/
inductive Cell where
  | val : Nat → Cell
  | void : Cell
deriving DecidableEq, Repr

section PyDict

variable {α β : Type} [DecidableEq α]

/-- Lookup in a Python dict: the first entry carrying the key. -/
def mget : List (α × β) → α → Option β
  | [], _ => none
  | e :: rest, k => if e.1 = k then some e.2 else mget rest k

/-- Key membership test of a Python dict. -/
def mhasKey : List (α × β) → α → Bool
  | [], _ => false
  | e :: rest, k => if e.1 = k then true else mhasKey rest k

/-- Assignment `d[k] = v` of a Python dict: replace the entry in place
when the key is present, append a fresh entry otherwise. -/
def mset (m : List (α × β)) (k : α) (v : β) : List (α × β) :=
  if mhasKey m k then m.map (fun e => if e.1 = k then (k, v) else e)
  else m ++ [(k, v)]

/-- The keys of a Python dict in insertion order. -/
def mkeys (m : List (α × β)) : List α := m.map (fun e => e.1)

/-- Lookup of `collections.ChainMap`: scan the maps in declared order,
return the first hit (`CompositeJournal.__getitem__`). -/
def cLookup (js : List (List (α × β))) (k : α) : Option β :=
  match js with
  | [] => none
  | j :: rest =>
    match mget j k with
    | some v => some v
    | none => cLookup rest k

/-- One `d.update(dict.fromkeys(mapping))` step of the `ChainMap`
iteration: keys already seen keep their position, new keys append. -/
def keysUpdate (acc : List α) (ks : List α) : List α :=
  ks.foldl (fun a k => if k ∈ a then a else a ++ [k]) acc

/-- The key sequence of `collections.ChainMap.__iter__`: update an empty
dict with the key sets of the maps from last to first. -/
def compositeKeys (js : List (List (α × β))) : List α :=
  js.reverse.foldl (fun acc j => keysUpdate acc (mkeys j)) []

end PyDict

/-! ### The transaction read surface over a composed view
(src/src/domain/core.py, class `Transaction`) -/

/-- Keys of the store. -/
abbrev Key := Nat

/-- A journal: the finite key-to-cell mapping of `MutableJournal` and of
committed payloads. -/
abbrev Jrnl := List (Key × Cell)

/-- Truth of `not isinstance(value, Void)` for a first-found cell. -/
def isPresent : Option Cell → Bool
  | some (Cell.val _) => true
  | _ => false

/-- Outer `Transaction.__getitem__`: look the key up in the composed
state; a missing key or a tombstone raises `KeyError`, here `none`. -/
def transGet (js : List Jrnl) (k : Key) : Option Nat :=
  match cLookup js k with
  | some (Cell.val v) => some v
  | _ => none

/-- Outer `Transaction.__contains__`: the effective cell exists and is
not a tombstone. -/
def transContains (js : List Jrnl) (k : Key) : Bool :=
  isPresent (cLookup js k)

/-- Outer `Transaction.__iter__`: the state iteration filtered to keys
whose first-found cell is not a tombstone. -/
def transIterKeys (js : List Jrnl) : List Key :=
  (compositeKeys js).filter (fun k => isPresent (cLookup js k))

/-- Outer `Transaction.__len__`: count the state values that are not
tombstones. -/
def transLen (js : List Jrnl) : Nat :=
  (compositeKeys js).countP (fun k => isPresent (cLookup js k))

/-! ### Committed repository
(src/src/domain/core.py and
src/src/adapters/repositories/committed_repositories.py) -/

/-- One committed item `(offset, payload)`. -/
structure CommittedItemL where
  offset : Nat
  payload : Jrnl
deriving DecidableEq, Repr

/-- State of `InMemoryCommittedRepository`: the `Counter` value and the
appended items. -/
structure CRepo where
  counter : Nat
  items : List CommittedItemL
deriving DecidableEq, Repr

/-- `CommittedRepository.commit_journal`: shift the counter, then append
the item carrying the new counter value as its offset. -/
def commitJournal (r : CRepo) (j : Jrnl) : CRepo :=
  { counter := r.counter + 1, items := r.items ++ [⟨r.counter + 1, j⟩] }

/-- A committed repository reached from the empty one by a sequence of
`commit_journal` calls, the only mutating operation. -/
def commitFold (l : List Jrnl) : CRepo :=
  l.foldl commitJournal ⟨0, []⟩

/-- `InMemoryCommittedRepository.get_journal`: `bisect_left` keeps the
items with `offset >= start_offset` (skipped when `start_offset == 0`),
`bisect_right` keeps those with `offset <= end_offset` when one is given
— written with `dropWhile`/`takeWhile`, which agree with the bisect
slicing on offset-sorted item lists, the only reachable ones — and the
selected payloads are chained newest-first. -/
def committedSlice (items : List CommittedItemL) (startOff : Nat)
    (endOff : Option Nat) : List Jrnl :=
  let afterStart :=
    if startOff = 0 then items
    else items.dropWhile (fun i => decide (i.offset < startOff))
  let selected :=
    match endOff with
    | none => afterStart
    | some e => afterStart.takeWhile (fun i => decide (i.offset ≤ e))
  (selected.map (fun i => i.payload)).reverse

/-! ### Multi-version transactions
(src/src/transactions/multi_version_strategy.py) -/

/-- The journal-repository state seen by one multi-version transaction:
the committed items with their counter, the uncommitted journal owned by
the transaction, and its snapshot watermark `target_offset`. -/
structure MVState where
  committed : List CommittedItemL
  counter : Nat
  txJournal : Jrnl
  targetOffset : Nat
deriving DecidableEq, Repr

/-- The ahead journal: the committed view from `target_offset + 1` on. -/
def aheadJournal (s : MVState) : List Jrnl :=
  committedSlice s.committed (s.targetOffset + 1) none

/-- `MultiVersionStrategyTransaction.check_integrity`: some key of the
transaction journal also sits in the ahead journal with a cell different
from the recorded one. -/
def baseConflict (tx : Jrnl) (ahead : List Jrnl) : Bool :=
  (mkeys tx).any (fun k =>
    match cLookup ahead k, mget tx k with
    | some ca, some ct => decide (ca ≠ ct)
    | _, _ => false)

/-- `MultiVersionStrategyTransaction.commit`: run `check_integrity`
against the ahead journal; on failure raise `SerializationError` (second
component `true`) before any mutation; on success append the journal to
the committed log, recycle the uncommitted journal and refresh
`target_offset` to the new `last_offset`. -/
def mvCommitRun (s : MVState) : MVState × Bool :=
  if baseConflict s.txJournal (aheadJournal s) then (s, true)
  else
    ({ committed := s.committed ++ [⟨s.counter + 1, s.txJournal⟩],
       counter := s.counter + 1,
       txJournal := [],
       targetOffset := s.counter + 1 }, false)

/-- A commit of a different transaction, as this transaction sees it: a
new item is appended under the shifted counter; the target offset and the
own journal stay. -/
def otherCommit (s : MVState) (j : Jrnl) : MVState :=
  { s with committed := s.committed ++ [⟨s.counter + 1, j⟩],
           counter := s.counter + 1 }

/-- `RepeatableReadMultiVersionStrategyTransaction.state`: the own
uncommitted journal chained in front of `committed[..=target_offset]`. -/
def rrState (s : MVState) : List Jrnl :=
  s.txJournal :: committedSlice s.committed 0 (some s.targetOffset)

/-- `SerializableMultiVersionStrategyTransaction.state`: the same
composition as the repeatable-read variant. -/
def serState (s : MVState) : List Jrnl :=
  s.txJournal :: committedSlice s.committed 0 (some s.targetOffset)

/-- `SerializableMultiVersionStrategyTransaction.__getitem__`: a found
value is recorded into the own journal and returned; a missing key or a
tombstone records a tombstone and re-raises `KeyError` (`none`). -/
def serGetItem (s : MVState) (k : Key) : MVState × Option Nat :=
  match cLookup (serState s) k with
  | some (Cell.val v) =>
    ({ s with txJournal := mset s.txJournal k (Cell.val v) }, some v)
  | _ =>
    ({ s with txJournal := mset s.txJournal k Cell.void }, none)

/-- `SerializableMultiVersionStrategyTransaction.__delitem__`: deleting
a present key writes a tombstone into the own journal; a missing or
tombstoned key records a tombstone and re-raises `KeyError` (second
component `true`). -/
def serDelItem (s : MVState) (k : Key) : MVState × Bool :=
  match cLookup (serState s) k with
  | some (Cell.val _) =>
    ({ s with txJournal := mset s.txJournal k Cell.void }, false)
  | _ =>
    ({ s with txJournal := mset s.txJournal k Cell.void }, true)

/-- Python truthiness of the ahead `CompositeJournal`: its `ChainMap`
length, the number of distinct keys, is not zero. -/
def aheadTruthy (ahead : List Jrnl) : Bool :=
  decide ((compositeKeys ahead).length ≠ 0)

/-- The serializable length counter: over the values of the ahead
journal, one first-found cell per distinct key, a tombstone counts -1
and any other cell +1. -/
def lenCounter (ahead : List Jrnl) : Int :=
  (compositeKeys ahead).foldl
    (fun c k =>
      match cLookup ahead k with
      | some Cell.void => c - 1
      | _ => c + 1) 0

/-- `SerializableMultiVersionStrategyTransaction.check_integrity`: the
full block, then the length block, then the base predicate. -/
def serCheckIntegrity (fullBlock lenBlock : Bool) (tx : Jrnl)
    (ahead : List Jrnl) : Bool :=
  if fullBlock && aheadTruthy ahead then true
  else if lenBlock && decide (lenCounter ahead ≠ 0) then true
  else baseConflict tx ahead

/-- A fresh multi-version state over an empty store. -/
def mvEmpty : MVState :=
  { committed := [], counter := 0, txJournal := [], targetOffset := 0 }

/-- A multi-version state with one committed item and a fresh snapshot. -/
def mvSample : MVState :=
  { committed := [⟨1, [(1, Cell.val 5)]⟩], counter := 1,
    txJournal := [], targetOffset := 1 }

/-! ### Lock registry
(src/src/domain/transactions/lock_strategy.py) -/

/-- A lock entry key: a user key or the `AnyKey` sentinel. -/
inductive LKey where
  | key : Nat → LKey
  | anyKey : LKey
deriving DecidableEq, Repr

/-- What the registry records as the owner of a lock. The code intends a
transaction; `RepeatableReadLockStrategyTransaction.__contains__` and the
serializable variant pass the queried key object instead, so the model
keeps both shapes. Distinct constructors never compare equal, exactly as
a transaction object never equals a key object under identity equality. -/
inductive Owner where
  | txOwner : Nat → Owner
  | keyObj : Nat → Owner
deriving DecidableEq, Repr

/-- The `BaseAccessProtector.locks` dict. -/
abbrev Registry := List (LKey × Owner)

/-- A lock entry exists and is held by someone other than `t`. -/
def lockedByOther (r : Registry) (lk : LKey) (t : Owner) : Bool :=
  match mget r lk with
  | some o => decide (o ≠ t)
  | none => false

/-- `BaseAccessProtector.add_key_lock`: refuse with `AccessError` when
the entry or the full lock is held by another owner, otherwise record
`t` as owner of `lk`. -/
def addKeyLock (t : Owner) (lk : LKey) (r : Registry) : Except Unit Registry :=
  if lockedByOther r lk t || lockedByOther r LKey.anyKey t then Except.error ()
  else Except.ok (mset r lk t)

/-- `BaseAccessProtector.add_full_lock`: refuse with `AccessError` when
any entry is held by another owner, otherwise record `t` under `AnyKey`. -/
def addFullLock (t : Owner) (r : Registry) : Except Unit Registry :=
  if r.any (fun e => decide (e.2 ≠ t)) then Except.error ()
  else Except.ok (mset r LKey.anyKey t)

/-- `BaseAccessProtector.clear_locks_by_transaction`: keep the entries
whose owner is a different object. -/
def clearLocksBy (t : Nat) (r : Registry) : Registry :=
  r.filter (fun e => decide (e.2 ≠ Owner.txOwner t))

/-- The registry calls transactions can issue. -/
inductive LockOp where
  | addKey : Nat → Nat → LockOp
  | addFull : Nat → LockOp
  | clear : Nat → LockOp

/-- One registry call; a refused acquisition leaves the registry as it
was. -/
def applyLockOp (r : Registry) : LockOp → Registry
  | LockOp.addKey t k =>
    match addKeyLock (Owner.txOwner t) (LKey.key k) r with
    | Except.ok r2 => r2
    | Except.error _ => r
  | LockOp.addFull t =>
    match addFullLock (Owner.txOwner t) r with
    | Except.ok r2 => r2
    | Except.error _ => r
  | LockOp.clear t => clearLocksBy t r

/-- A registry reachable from the empty one. -/
def lockFold (ops : List LockOp) : Registry :=
  ops.foldl applyLockOp []

/-- Lines 129-131 and 155-157 of
src/src/domain/transactions/lock_strategy.py as written:
`self.access_protector.add_key_lock(transaction=item, key=item)` — the
queried key object itself is recorded as the owner of its key lock. -/
def containsLockCall (item : Nat) (r : Registry) : Except Unit Registry :=
  addKeyLock (Owner.keyObj item) (LKey.key item) r

/-! ### Transaction factory (src/src/factory.py) -/

/-- The `IsolationLevel` enum of src/src/domain/core.py. -/
inductive IsoLevel where
  | readUncommitted
  | readCommitted
  | repeatableRead
  | serializable
deriving DecidableEq, Repr

/-- The multi-version transaction classes the factory constructs. -/
inductive MVVariant where
  | readCommitted
  | repeatableRead
  | serializable
deriving DecidableEq, Repr

/-- The `TransactionLevelIsNotImplemented` failure of the factory. -/
inductive FactoryError where
  | levelNotImplemented
deriving DecidableEq, Repr

/-- `MultiVersionStrategyTransactionFactory.create_transaction`: the
three implemented levels map to their classes, the fall-through case
raises the not-implemented error. -/
def mvCreateTransaction : IsoLevel → Except FactoryError MVVariant
  | IsoLevel.readCommitted => Except.ok MVVariant.readCommitted
  | IsoLevel.repeatableRead => Except.ok MVVariant.repeatableRead
  | IsoLevel.serializable => Except.ok MVVariant.serializable
  | _ => Except.error FactoryError.levelNotImplemented

section PyDictLemmas

variable {α β : Type} [DecidableEq α]

theorem mget_cons {e : α × β} {rest : List (α × β)} {k : α} :
    mget (e :: rest) k = if e.1 = k then some e.2 else mget rest k := rfl

theorem mhasKey_cons {e : α × β} {rest : List (α × β)} {k : α} :
    mhasKey (e :: rest) k = if e.1 = k then true else mhasKey rest k := rfl

theorem mget_eq_none_iff {m : List (α × β)} {k : α} :
    mget m k = none ↔ k ∉ mkeys m := by
  induction m with
  | nil => simp [mget, mkeys]
  | cons e rest ih =>
    by_cases h : e.1 = k
    · simp [mget, mkeys, h]
    · simp only [mget, mkeys, h, if_false, List.map_cons, List.mem_cons]
      rw [ih]
      unfold mkeys
      constructor
      · rintro hr (hek | hm)
        · exact h hek.symm
        · exact hr hm
      · intro hr hm
        exact hr (Or.inr hm)

theorem mem_keys_of_mget_eq_some {m : List (α × β)} {k : α} {v : β}
    (h : mget m k = some v) : k ∈ mkeys m := by
  by_contra hk
  rw [mget_eq_none_iff.mpr hk] at h
  exact Option.noConfusion h

theorem mget_isSome_of_mem_keys {m : List (α × β)} {k : α}
    (h : k ∈ mkeys m) : (mget m k).isSome := by
  cases hm : mget m k with
  | none => exact absurd (mget_eq_none_iff.mp hm) (not_not_intro h)
  | some v => rfl

theorem mem_of_mget_eq_some {m : List (α × β)} {k : α} {v : β}
    (h : mget m k = some v) : (k, v) ∈ m := by
  induction m with
  | nil => simp [mget] at h
  | cons e rest ih =>
    by_cases he : e.1 = k
    · rw [mget_cons, if_pos he] at h
      have hv := Option.some.inj h
      obtain ⟨a, b⟩ := e
      simp only at he hv
      subst he
      subst hv
      exact List.mem_cons_self _ _
    · rw [mget_cons, if_neg he] at h
      exact List.mem_cons_of_mem _ (ih h)

theorem mget_eq_some_of_mem {m : List (α × β)} {k : α} {v : β}
    (hnd : (mkeys m).Nodup) (h : (k, v) ∈ m) : mget m k = some v := by
  induction m with
  | nil => simp at h
  | cons e rest ih =>
    simp only [mkeys, List.map_cons, List.nodup_cons] at hnd
    rcases List.mem_cons.mp h with he | hr
    · subst he
      simp [mget_cons]
    · have hne : e.1 ≠ k := by
        intro hek
        apply hnd.1
        rw [hek]
        exact List.mem_map.mpr ⟨(k, v), hr, rfl⟩
      rw [mget_cons, if_neg hne]
      exact ih hnd.2 hr

theorem mhasKey_iff_mem_keys {m : List (α × β)} {k : α} :
    mhasKey m k = true ↔ k ∈ mkeys m := by
  induction m with
  | nil => simp [mhasKey, mkeys]
  | cons e rest ih =>
    by_cases he : e.1 = k
    · simp [mhasKey, mkeys, he]
    · simp only [mhasKey, mkeys, he, if_false, List.map_cons, List.mem_cons]
      rw [ih]
      unfold mkeys
      constructor
      · exact fun hr => Or.inr hr
      · rintro (hek | hm)
        · exact absurd hek.symm he
        · exact hm

theorem mget_mset_self {m : List (α × β)} {k : α} {v : β} :
    mget (mset m k v) k = some v := by
  unfold mset
  by_cases h : mhasKey m k = true
  · rw [if_pos h]
    induction m with
    | nil => simp [mhasKey] at h
    | cons e rest ih =>
      by_cases he : e.1 = k
      · rw [List.map_cons, if_pos he, mget_cons]
        simp
      · rw [mhasKey_cons, if_neg he] at h
        rw [List.map_cons, if_neg he, mget_cons, if_neg he]
        exact ih h
  · rw [if_neg h]
    have hk : k ∉ mkeys m := fun hm => h (mhasKey_iff_mem_keys.mpr hm)
    clear h
    induction m with
    | nil => simp [mget_cons, mget]
    | cons e rest ih =>
      have hne : e.1 ≠ k := by
        intro hek
        exact hk (List.mem_map.mpr ⟨e, List.mem_cons_self e rest, hek⟩)
      rw [List.cons_append, mget_cons, if_neg hne]
      exact ih (fun hm => hk (List.mem_cons_of_mem _ hm))

theorem mget_mset_ne {m : List (α × β)} {k k2 : α} {v : β} (h : k2 ≠ k) :
    mget (mset m k v) k2 = mget m k2 := by
  unfold mset
  by_cases hh : mhasKey m k = true
  · rw [if_pos hh]
    clear hh
    induction m with
    | nil => rfl
    | cons e rest ih =>
      by_cases he : e.1 = k
      · have hne2 : e.1 ≠ k2 := fun hc => h (by rw [← hc, he])
        rw [List.map_cons, if_pos he, mget_cons, mget_cons,
          if_neg (Ne.symm h), if_neg hne2]
        exact ih
      · by_cases he2 : e.1 = k2
        · rw [List.map_cons, if_neg he, mget_cons, mget_cons,
            if_pos he2, if_pos he2]
        · rw [List.map_cons, if_neg he, mget_cons, mget_cons,
            if_neg he2, if_neg he2]
          exact ih
  · rw [if_neg hh]
    clear hh
    induction m with
    | nil => simp [mget_cons, mget, Ne.symm h]
    | cons e rest ih =>
      by_cases he2 : e.1 = k2
      · rw [List.cons_append, mget_cons, mget_cons, if_pos he2, if_pos he2]
      · rw [List.cons_append, mget_cons, mget_cons, if_neg he2, if_neg he2]
        exact ih

theorem mem_mset_elim {m : List (α × β)} {k : α} {v : β} {e : α × β}
    (h : e ∈ mset m k v) : e = (k, v) ∨ (e ∈ m ∧ e.1 ≠ k) := by
  unfold mset at h
  by_cases hh : mhasKey m k = true
  · rw [if_pos hh] at h
    obtain ⟨x, hx, hfx⟩ := List.mem_map.mp h
    by_cases hxk : x.1 = k
    · left
      rw [← hfx, if_pos hxk]
    · right
      rw [← hfx, if_neg hxk]
      exact ⟨hx, hxk⟩
  · rw [if_neg hh] at h
    rcases List.mem_append.mp h with hm | hkv
    · have hne : e.1 ≠ k := by
        intro hek
        exact hh (mhasKey_iff_mem_keys.mpr
          (List.mem_map.mpr ⟨e, hm, hek⟩))
      exact Or.inr ⟨hm, hne⟩
    · exact Or.inl (List.mem_singleton.mp hkv)

theorem mkeys_nodup_mset {m : List (α × β)} {k : α} {v : β}
    (h : (mkeys m).Nodup) : (mkeys (mset m k v)).Nodup := by
  unfold mset
  by_cases hh : mhasKey m k = true
  · rw [if_pos hh]
    have hkeys : mkeys (m.map (fun e => if e.1 = k then (k, v) else e)) = mkeys m := by
      unfold mkeys
      rw [List.map_map]
      apply List.map_congr_left
      intro e _
      by_cases he : e.1 = k <;> simp [he]
    rwa [hkeys]
  · rw [if_neg hh]
    have hk : k ∉ mkeys m := fun hm => hh (mhasKey_iff_mem_keys.mpr hm)
    unfold mkeys at *
    rw [List.map_append]
    refine List.Nodup.append h (by simp) ?_
    intro a ha hb
    simp only [List.map_cons, List.map_nil, List.mem_singleton] at hb
    exact hk (hb ▸ ha)

theorem cLookup_eq_none_iff {js : List (List (α × β))} {k : α} :
    cLookup js k = none ↔ ∀ j ∈ js, k ∉ mkeys j := by
  induction js with
  | nil => simp [cLookup]
  | cons j rest ih =>
    cases hj : mget j k with
    | some v =>
      simp only [cLookup, hj]
      constructor
      · intro h
        exact Option.noConfusion h
      · intro h
        exact absurd (mem_keys_of_mget_eq_some hj) (h j (List.mem_cons_self j rest))
    | none =>
      simp only [cLookup, hj]
      rw [ih]
      constructor
      · intro h j2 hj2
        rcases List.mem_cons.mp hj2 with rfl | hr
        · exact mget_eq_none_iff.mp hj
        · exact h j2 hr
      · intro h j2 hj2
        exact h j2 (List.mem_cons_of_mem _ hj2)

theorem mem_keysUpdate {acc ks : List α} {k : α} :
    k ∈ keysUpdate acc ks ↔ k ∈ acc ∨ k ∈ ks := by
  induction ks generalizing acc with
  | nil => simp [keysUpdate]
  | cons a rest ih =>
    unfold keysUpdate at *
    simp only [List.foldl_cons]
    by_cases ha : a ∈ acc
    · rw [if_pos ha, ih]
      simp only [List.mem_cons]
      constructor
      · rintro (h | h)
        · exact Or.inl h
        · exact Or.inr (Or.inr h)
      · rintro (h | (rfl | h))
        · exact Or.inl h
        · exact Or.inl ha
        · exact Or.inr h
    · rw [if_neg ha, ih]
      simp only [List.mem_append, List.mem_singleton, List.mem_cons]
      tauto

theorem nodup_keysUpdate {acc ks : List α} (h : acc.Nodup) :
    (keysUpdate acc ks).Nodup := by
  induction ks generalizing acc with
  | nil => exact h
  | cons a rest ih =>
    unfold keysUpdate at *
    simp only [List.foldl_cons]
    by_cases ha : a ∈ acc
    · rw [if_pos ha]
      exact ih h
    · rw [if_neg ha]
      exact ih (by simp [List.nodup_append, h, ha])

theorem mem_compositeKeys {js : List (List (α × β))} {k : α} :
    k ∈ compositeKeys js ↔ ∃ j ∈ js, k ∈ mkeys j := by
  have aux : ∀ (l : List (List (α × β))) (acc : List α),
      k ∈ l.foldl (fun acc j => keysUpdate acc (mkeys j)) acc ↔
        k ∈ acc ∨ ∃ j ∈ l, k ∈ mkeys j := by
    intro l
    induction l with
    | nil => simp
    | cons j rest ih =>
      intro acc
      simp only [List.foldl_cons]
      rw [ih, mem_keysUpdate]
      simp only [List.mem_cons]
      constructor
      · rintro ((h | h) | ⟨j2, hj2, hk⟩)
        · exact Or.inl h
        · exact Or.inr ⟨j, Or.inl rfl, h⟩
        · exact Or.inr ⟨j2, Or.inr hj2, hk⟩
      · rintro (h | ⟨j2, (rfl | hj2), hk⟩)
        · exact Or.inl (Or.inl h)
        · exact Or.inl (Or.inr hk)
        · exact Or.inr ⟨j2, hj2, hk⟩
  unfold compositeKeys
  rw [aux]
  simp

theorem compositeKeys_nodup {js : List (List (α × β))} :
    (compositeKeys js).Nodup := by
  have aux : ∀ (l : List (List (α × β))) (acc : List α), acc.Nodup →
      (l.foldl (fun acc j => keysUpdate acc (mkeys j)) acc).Nodup := by
    intro l
    induction l with
    | nil => exact fun _ h => h
    | cons j rest ih =>
      intro acc hacc
      exact ih _ (nodup_keysUpdate hacc)
  exact aux _ [] List.nodup_nil

theorem cLookup_isSome_iff {js : List (List (α × β))} {k : α} :
    (cLookup js k).isSome ↔ ∃ j ∈ js, k ∈ mkeys j := by
  cases h : cLookup js k with
  | none =>
    simp only [Option.isSome_none, Bool.false_eq_true, false_iff]
    rintro ⟨j, hj, hk⟩
    exact (cLookup_eq_none_iff.mp h j hj) hk
  | some v =>
    simp only [Option.isSome_some, true_iff]
    by_contra hn
    push_neg at hn
    rw [cLookup_eq_none_iff.mpr (fun j hj hk => hn j hj hk)] at h
    exact Option.noConfusion h

end PyDictLemmas

/-! ### Claim C3 and claim C8: composite and outer read surface -/

/-- Claim C3: for every composite journal built from an ordered list of
inner journals and every key, lookup returns the cell of the first inner
journal in declared order that contains the key, and returns nothing
exactly when no inner journal contains it. -/
theorem composite_lookup_first_found (js : List Jrnl) (k : Key) :
    (∀ pre j post, js = pre ++ j :: post → (∀ j2 ∈ pre, k ∉ mkeys j2) →
      k ∈ mkeys j → cLookup js k = mget j k)
    ∧ (cLookup js k = none ↔ ∀ j ∈ js, k ∉ mkeys j) := by
  constructor
  · intro pre j post hjs hpre hk
    subst hjs
    induction pre with
    | nil =>
      simp only [List.nil_append, cLookup]
      cases hm : mget j k with
      | none => exact absurd (mget_eq_none_iff.mp hm) (not_not_intro hk)
      | some v => rfl
    | cons p rest ih =>
      have hp : mget p k = none :=
        mget_eq_none_iff.mpr (hpre p (List.mem_cons_self p rest))
      simp only [List.cons_append, cLookup, hp]
      exact ih (fun j2 hj2 => hpre j2 (List.mem_cons_of_mem _ hj2))
  · exact cLookup_eq_none_iff

/-- Witness for the composite lookup theorem: with a first journal not
containing the key, lookup lands in the second journal. -/
theorem composite_lookup_first_found_witness :
    cLookup [[(5, Cell.val 7)], [(1, Cell.val 3), (5, Cell.val 9)]] 1
      = mget [(1, Cell.val 3), (5, Cell.val 9)] 1 :=
  (composite_lookup_first_found
      [[(5, Cell.val 7)], [(1, Cell.val 3), (5, Cell.val 9)]] 1).1
    [[(5, Cell.val 7)]] [(1, Cell.val 3), (5, Cell.val 9)] [] rfl
    (by decide) (by decide)

/-- Claim C8: over any composed read view, the outer iteration yields
exactly the distinct keys whose first-found cell is a present value,
each at most once, and the outer length equals the number of such keys. -/
theorem trans_iter_len_present (js : List Jrnl) :
    (∀ k, k ∈ transIterKeys js ↔ ∃ v, cLookup js k = some (Cell.val v))
    ∧ (transIterKeys js).Nodup
    ∧ transLen js = (transIterKeys js).length := by
  refine ⟨?_, ?_, ?_⟩
  · intro k
    unfold transIterKeys
    rw [List.mem_filter]
    constructor
    · rintro ⟨hmem, hp⟩
      cases hc : cLookup js k with
      | none =>
        rw [hc] at hp
        exact absurd hp (by simp [isPresent])
      | some c =>
        cases c with
        | val v => exact ⟨v, rfl⟩
        | void =>
          rw [hc] at hp
          exact absurd hp (by simp [isPresent])
    · rintro ⟨v, hv⟩
      refine ⟨?_, by rw [hv]; rfl⟩
      have hs : (cLookup js k).isSome := by rw [hv]; rfl
      obtain ⟨j, hj, hk⟩ := cLookup_isSome_iff.mp hs
      exact mem_compositeKeys.mpr ⟨j, hj, hk⟩
  · exact List.Nodup.filter _ compositeKeys_nodup
  · unfold transLen transIterKeys
    rw [List.countP_eq_length_filter]

/-! ### Claim C4: committed offsets -/

theorem commitFold_from (l : List Jrnl) (r : CRepo) :
    (l.foldl commitJournal r).counter = r.counter + l.length
    ∧ (l.foldl commitJournal r).items.map (fun i => i.offset)
        = r.items.map (fun i => i.offset) ++ List.range' (r.counter + 1) l.length := by
  induction l generalizing r with
  | nil => simp
  | cons j rest ih =>
    simp only [List.foldl_cons, List.length_cons]
    obtain ⟨h1, h2⟩ := ih (commitJournal r j)
    refine ⟨by rw [h1]; simp only [commitJournal]; omega, ?_⟩
    rw [h2]
    simp only [commitJournal, List.map_append, List.map_cons, List.map_nil]
    rw [List.append_assoc]
    congr 1

/-- Claim C4: starting from the empty committed repository, after n
successful commits the stored items carry exactly the offsets 1..n in
insertion order (strictly increasing and contiguous), `last_offset`
equals n and is 0 before any commit, and each further commit only
appends, so existing items are never rewritten. -/
theorem committed_offsets_contiguous (l : List Jrnl) :
    (commitFold l).items.map (fun i => i.offset) = List.range' 1 l.length
    ∧ (commitFold l).counter = l.length
    ∧ (commitFold []).counter = 0
    ∧ ∀ j, (commitFold l).items <+: (commitFold (l ++ [j])).items := by
  obtain ⟨h1, h2⟩ := commitFold_from l ⟨0, []⟩
  refine ⟨by simpa using h2, by simpa using h1, rfl, ?_⟩
  intro j
  unfold commitFold
  rw [List.foldl_append]
  simp only [List.foldl_cons, List.foldl_nil, commitJournal]
  exact List.prefix_append _ _

/-! ### Claim C9: the multi-version factory -/

/-- Claim C9: the multi-version factory refuses read-uncommitted with
the not-implemented error and returns the matching transaction variant
for each of the three other isolation levels. -/
theorem mv_factory_dispatch :
    mvCreateTransaction IsoLevel.readUncommitted
        = Except.error FactoryError.levelNotImplemented
    ∧ mvCreateTransaction IsoLevel.readCommitted = Except.ok MVVariant.readCommitted
    ∧ mvCreateTransaction IsoLevel.repeatableRead = Except.ok MVVariant.repeatableRead
    ∧ mvCreateTransaction IsoLevel.serializable = Except.ok MVVariant.serializable :=
  ⟨rfl, rfl, rfl, rfl⟩

/-! ### Claim C7: the contains lock owner -/

/-- Claim C7, evaluated at the failing input: after `contains(5)` on an
empty registry, the key lock on 5 is owned by the key object itself and
not by any transaction, so the calling transaction is then refused even
its own write lock on that key. -/
theorem contains_lock_records_key_as_owner :
    containsLockCall 5 [] = Except.ok [(LKey.key 5, Owner.keyObj 5)]
    ∧ (∀ t : Nat,
        mget [(LKey.key 5, Owner.keyObj 5)] (LKey.key 5) ≠ some (Owner.txOwner t))
    ∧ addKeyLock (Owner.txOwner 0) (LKey.key 5) [(LKey.key 5, Owner.keyObj 5)]
        = Except.error () := by
  refine ⟨rfl, ?_, rfl⟩
  intro t h
  have h2 : Owner.keyObj 5 = Owner.txOwner t := Option.some.inj h
  exact Owner.noConfusion h2

/-! ### Claims C1, C2, C6, C10: multi-version transactions -/

theorem takeWhile_append_single {γ : Type} (p : γ → Bool) (l : List γ) (x : γ)
    (hx : p x = false) : (l ++ [x]).takeWhile p = l.takeWhile p := by
  induction l with
  | nil => simp [List.takeWhile, hx]
  | cons a rest ih =>
    by_cases ha : p a = true
    · rw [List.cons_append, List.takeWhile_cons_of_pos ha,
        List.takeWhile_cons_of_pos ha, ih]
    · have ha2 : ¬ p a := ha
      rw [List.cons_append, List.takeWhile_cons_of_neg ha2,
        List.takeWhile_cons_of_neg ha2]

theorem takeWhile_eq_filter_of_sorted (t : Nat) (items : List CommittedItemL)
    (hs : List.Pairwise (fun a b => a.offset < b.offset) items) :
    items.takeWhile (fun i => decide (i.offset ≤ t))
      = items.filter (fun i => decide (i.offset ≤ t)) := by
  induction items with
  | nil => rfl
  | cons a rest ih =>
    rcases List.pairwise_cons.mp hs with ⟨ha, hrest⟩
    by_cases h : a.offset ≤ t
    · rw [List.takeWhile_cons_of_pos (by simpa using h),
        List.filter_cons_of_pos (by simpa using h), ih hrest]
    · rw [List.takeWhile_cons_of_neg (by simpa using h),
        List.filter_cons_of_neg (by simpa using h)]
      symm
      rw [List.filter_eq_nil_iff]
      intro b hb
      simp only [decide_eq_true_eq]
      have hab := ha b hb
      omega

theorem committedSlice_zero_some (items : List CommittedItemL) (t : Nat) :
    committedSlice items 0 (some t)
      = ((items.takeWhile (fun i => decide (i.offset ≤ t))).map
          (fun i => i.payload)).reverse := by
  simp [committedSlice]

/-- Claim C2: a repeatable-read or serializable multi-version transaction
whose target offset is at most the current counter — true of every
reachable state, since the target was once the last offset and the
counter only grows — keeps exactly the same read view after any other
transaction commits: get, contains, iteration and length are all
unchanged until the transaction itself refreshes its target, and the
view is the own journal composed in front of the committed log
restricted to offsets at most the target (on sorted logs the cut keeps
exactly those items). -/
theorem mv_snapshot_read_stability (s : MVState) (j : Jrnl)
    (h : s.targetOffset ≤ s.counter) :
    rrState (otherCommit s j) = rrState s
    ∧ serState (otherCommit s j) = serState s
    ∧ (∀ k, transGet (rrState (otherCommit s j)) k = transGet (rrState s) k)
    ∧ (∀ k, transContains (rrState (otherCommit s j)) k = transContains (rrState s) k)
    ∧ transIterKeys (rrState (otherCommit s j)) = transIterKeys (rrState s)
    ∧ transLen (rrState (otherCommit s j)) = transLen (rrState s)
    ∧ rrState s = s.txJournal :: committedSlice s.committed 0 (some s.targetOffset)
    ∧ (List.Pairwise (fun a b => a.offset < b.offset) s.committed →
        committedSlice s.committed 0 (some s.targetOffset)
          = ((s.committed.filter (fun i => decide (i.offset ≤ s.targetOffset))).map
              (fun i => i.payload)).reverse) := by
  have hx : (fun i : CommittedItemL => decide (i.offset ≤ s.targetOffset))
      ⟨s.counter + 1, j⟩ = false := by
    simp only [decide_eq_false_iff_not]
    simp only [not_le]
    omega
  have hview : rrState (otherCommit s j) = rrState s := by
    show s.txJournal ::
        committedSlice (s.committed ++ [⟨s.counter + 1, j⟩]) 0 (some s.targetOffset)
      = s.txJournal :: committedSlice s.committed 0 (some s.targetOffset)
    rw [committedSlice_zero_some, committedSlice_zero_some,
      takeWhile_append_single
        (fun i : CommittedItemL => decide (i.offset ≤ s.targetOffset))
        s.committed ⟨s.counter + 1, j⟩ hx]
  refine ⟨hview, hview, fun k => by rw [hview], fun k => by rw [hview],
    by rw [hview], by rw [hview], rfl, ?_⟩
  intro hs
  rw [committedSlice_zero_some, takeWhile_eq_filter_of_sorted _ _ hs]

/-- Witness for the snapshot stability theorem at a state with one
committed item and a fresh snapshot. -/
theorem mv_snapshot_read_stability_witness :
    mvSample.targetOffset ≤ mvSample.counter
    ∧ rrState (otherCommit mvSample [(2, Cell.val 7)]) = rrState mvSample :=
  ⟨by decide,
   (mv_snapshot_read_stability mvSample [(2, Cell.val 7)] (by decide)).1⟩

/-- Claim C1: a multi-version commit under the base integrity predicate
raises the serialization error exactly when some key of the write
journal also appears in the ahead journal with a cell different from the
recorded one, and a raising commit leaves the committed log, the write
journal and the target offset untouched. -/
theorem mv_commit_error_iff_conflict (s : MVState) :
    ((mvCommitRun s).2 = true ↔
      ∃ k ca ct, cLookup (aheadJournal s) k = some ca
        ∧ mget s.txJournal k = some ct ∧ ca ≠ ct)
    ∧ ((mvCommitRun s).2 = true → (mvCommitRun s).1 = s) := by
  have hbc : baseConflict s.txJournal (aheadJournal s) = true ↔
      ∃ k ca ct, cLookup (aheadJournal s) k = some ca
        ∧ mget s.txJournal k = some ct ∧ ca ≠ ct := by
    unfold baseConflict
    rw [List.any_eq_true]
    constructor
    · rintro ⟨k, hk, hp⟩
      cases hca : cLookup (aheadJournal s) k with
      | none =>
        rw [hca] at hp
        cases hct : mget s.txJournal k <;> rw [hct] at hp <;> simp at hp
      | some ca =>
        cases hct : mget s.txJournal k with
        | none =>
          rw [hca, hct] at hp
          simp at hp
        | some ct =>
          rw [hca, hct] at hp
          exact ⟨k, ca, ct, hca, hct, of_decide_eq_true hp⟩
    · rintro ⟨k, ca, ct, hca, hct, hne⟩
      refine ⟨k, mem_keys_of_mget_eq_some hct, ?_⟩
      rw [hca, hct]
      exact decide_eq_true hne
  constructor
  · rw [← hbc]
    unfold mvCommitRun
    by_cases hb : baseConflict s.txJournal (aheadJournal s) = true
    · rw [if_pos hb]
      simp [hb]
    · rw [if_neg hb]
      simp [hb]
  · unfold mvCommitRun
    by_cases hb : baseConflict s.txJournal (aheadJournal s) = true
    · rw [if_pos hb]
      intro
      rfl
    · rw [if_neg hb]
      intro hc
      exact absurd hc (by simp)

/-- Claim C10: on a serializable multi-version transaction, reading or
deleting a key whose effective cell in the read view is missing or a
tombstone raises `KeyError` and, as a side effect, records a tombstone
for that key into the own write journal, so the failed observation
reaches the commit-time conflict check. -/
theorem ser_failed_read_records_tombstone (s : MVState) (k : Key)
    (h : cLookup (serState s) k = none ∨ cLookup (serState s) k = some Cell.void) :
    (serGetItem s k).2 = none
    ∧ mget (serGetItem s k).1.txJournal k = some Cell.void
    ∧ (serDelItem s k).2 = true
    ∧ mget (serDelItem s k).1.txJournal k = some Cell.void := by
  rcases h with h | h <;>
    exact ⟨by simp [serGetItem, h], by simp [serGetItem, h, mget_mset_self],
      by simp [serDelItem, h], by simp [serDelItem, h, mget_mset_self]⟩

/-- Witness for the failed-read theorem on the empty store. -/
theorem ser_failed_read_records_tombstone_witness :
    cLookup (serState mvEmpty) 1 = none
    ∧ (serGetItem mvEmpty 1).2 = none
    ∧ mget (serGetItem mvEmpty 1).1.txJournal 1 = some Cell.void :=
  ⟨by decide,
   (ser_failed_read_records_tombstone mvEmpty 1 (Or.inl (by decide))).1,
   (ser_failed_read_records_tombstone mvEmpty 1 (Or.inl (by decide))).2.1⟩

/-- Claim C6: for a serializable multi-version commit with the length
block set and no full block, the integrity check raises ahead of the
base predicate exactly when the per-distinct-key insert-minus-delete
counter over the ahead journal is non-zero; with a zero counter the
check falls through to the base predicate, and in particular an ahead
journal that inserts one key and tombstones another admits a
length-observing transaction with an empty write journal. -/
theorem ser_len_block_counter (tx : Jrnl) (ahead : List Jrnl) :
    (serCheckIntegrity false true tx ahead = true ↔
      (lenCounter ahead ≠ 0 ∨ baseConflict tx ahead = true))
    ∧ (lenCounter ahead = 0 →
        serCheckIntegrity false true tx ahead = baseConflict tx ahead)
    ∧ (∀ k1 k2 v, k1 ≠ k2 →
        lenCounter [[(k1, Cell.val v), (k2, Cell.void)]] = 0
        ∧ serCheckIntegrity false true [] [[(k1, Cell.val v), (k2, Cell.void)]]
            = false) := by
  have hmain : ∀ (tx2 : Jrnl) (ahead2 : List Jrnl),
      serCheckIntegrity false true tx2 ahead2
        = if lenCounter ahead2 ≠ 0 then true else baseConflict tx2 ahead2 := by
    intro tx2 ahead2
    by_cases hlc : lenCounter ahead2 = 0
    · simp [serCheckIntegrity, hlc]
    · simp [serCheckIntegrity, hlc]
  have hcount : ∀ k1 k2 v, k1 ≠ k2 →
      lenCounter [[(k1, Cell.val v), (k2, Cell.void)]] = 0 := by
    intro k1 k2 v hne
    simp [lenCounter, compositeKeys, keysUpdate, mkeys, cLookup, mget_cons,
      mget, hne, Ne.symm hne]
  refine ⟨?_, ?_, ?_⟩
  · rw [hmain]
    by_cases hlc : lenCounter ahead = 0
    · simp [hlc]
    · simp [hlc]
  · intro hlc
    rw [hmain]
    simp [hlc]
  · intro k1 k2 v hne
    refine ⟨hcount k1 k2 v hne, ?_⟩
    rw [hmain]
    simp [hcount k1 k2 v hne, baseConflict, mkeys]

/-- Witness for the length-block theorem at concrete keys. -/
theorem ser_len_block_counter_witness :
    lenCounter [[(1, Cell.val 5), (2, Cell.void)]] = 0
    ∧ serCheckIntegrity false true [] [[(1, Cell.val 5), (2, Cell.void)]] = false :=
  ⟨((ser_len_block_counter [] [[(1, Cell.val 5), (2, Cell.void)]]).2.2
      1 2 5 (by decide)).1,
   ((ser_len_block_counter [] [[(1, Cell.val 5), (2, Cell.void)]]).2.2
      1 2 5 (by decide)).2⟩

/-! ### Claim C5: the lock registry invariant -/

/-- The inductive invariant of the registry: entry keys are distinct, and
when the full lock is held every entry is owned by the full-lock owner. -/
def RegInv (r : Registry) : Prop :=
  (mkeys r).Nodup
  ∧ ∀ o, mget r LKey.anyKey = some o → ∀ e ∈ r, e.2 = o

theorem regInv_empty : RegInv [] := by
  constructor
  · simp [mkeys]
  · intro o h
    simp [mget] at h

theorem regInv_addKeyLock {r r2 : Registry} {t : Owner} {k : Nat}
    (hinv : RegInv r) (h : addKeyLock t (LKey.key k) r = Except.ok r2) :
    RegInv r2 := by
  unfold addKeyLock at h
  by_cases hg : (lockedByOther r (LKey.key k) t
      || lockedByOther r LKey.anyKey t) = true
  · rw [if_pos hg] at h
    exact Except.noConfusion h
  · rw [if_neg hg] at h
    have hr2 : r2 = mset r (LKey.key k) t := (Except.ok.inj h).symm
    subst hr2
    rw [Bool.not_eq_true] at hg
    have hany : lockedByOther r LKey.anyKey t = false :=
      (Bool.or_eq_false_iff.mp hg).2
    refine ⟨mkeys_nodup_mset hinv.1, ?_⟩
    intro o ho e he
    rw [mget_mset_ne (by simp)] at ho
    have hot : o = t := by
      unfold lockedByOther at hany
      rw [ho] at hany
      simpa using hany
    rcases mem_mset_elim he with rfl | ⟨hmem, _⟩
    · simp [hot]
    · exact hinv.2 o ho e hmem

theorem regInv_addFullLock {r r2 : Registry} {t : Owner}
    (hinv : RegInv r) (h : addFullLock t r = Except.ok r2) :
    RegInv r2 := by
  unfold addFullLock at h
  by_cases hg : r.any (fun e => decide (e.2 ≠ t)) = true
  · rw [if_pos hg] at h
    exact Except.noConfusion h
  · rw [if_neg hg] at h
    have hr2 : r2 = mset r LKey.anyKey t := (Except.ok.inj h).symm
    subst hr2
    have hall : ∀ e ∈ r, e.2 = t := by
      intro e he
      by_contra hne
      exact hg (List.any_eq_true.mpr ⟨e, he, decide_eq_true hne⟩)
    refine ⟨mkeys_nodup_mset hinv.1, ?_⟩
    intro o ho e he
    rw [mget_mset_self] at ho
    have hot : o = t := (Option.some.inj ho).symm
    rcases mem_mset_elim he with rfl | ⟨hmem, _⟩
    · simp [hot]
    · rw [hall e hmem, hot]

theorem regInv_clear {r : Registry} {t : Nat}
    (hinv : RegInv r) : RegInv (clearLocksBy t r) := by
  constructor
  · have hsub : List.Sublist (mkeys (clearLocksBy t r)) (mkeys r) :=
      List.Sublist.map _ (List.filter_sublist r)
    exact hinv.1.sublist hsub
  · intro o ho e he
    have hmem := mem_of_mget_eq_some ho
    have hmem2 : (LKey.anyKey, o) ∈ r := (List.mem_filter.mp hmem).1
    have ho2 : mget r LKey.anyKey = some o := mget_eq_some_of_mem hinv.1 hmem2
    exact hinv.2 o ho2 e (List.mem_filter.mp he).1

theorem regInv_applyLockOp {r : Registry} (hinv : RegInv r) (op : LockOp) :
    RegInv (applyLockOp r op) := by
  cases op with
  | addKey t k =>
    cases hres : addKeyLock (Owner.txOwner t) (LKey.key k) r with
    | ok r2 =>
      simpa [applyLockOp, hres] using regInv_addKeyLock hinv hres
    | error u =>
      simpa [applyLockOp, hres] using hinv
  | addFull t =>
    cases hres : addFullLock (Owner.txOwner t) r with
    | ok r2 =>
      simpa [applyLockOp, hres] using regInv_addFullLock hinv hres
    | error u =>
      simpa [applyLockOp, hres] using hinv
  | clear t =>
    exact regInv_clear hinv

theorem regInv_lockFold (ops : List LockOp) : RegInv (lockFold ops) := by
  have aux : ∀ (l : List LockOp) (r : Registry), RegInv r →
      RegInv (l.foldl applyLockOp r) := by
    intro l
    induction l with
    | nil => exact fun _ h => h
    | cons op rest ih =>
      intro r hr
      exact ih _ (regInv_applyLockOp hr op)
  exact aux ops [] regInv_empty

/-- Claim C5: in every lock-registry state reachable by any sequence of
key-lock, full-lock and clear calls, where refused acquisitions leave
the registry unchanged, each lock entry is owned by at most one
transaction, and whenever the full lock is held every entry of the
registry is owned by the same transaction that holds the full lock. -/
theorem lock_registry_exclusive (ops : List LockOp) :
    (∀ lk o o2, (lk, o) ∈ lockFold ops → (lk, o2) ∈ lockFold ops → o = o2)
    ∧ (∀ o, mget (lockFold ops) LKey.anyKey = some o →
        ∀ lk o2, (lk, o2) ∈ lockFold ops → o2 = o) := by
  have hinv := regInv_lockFold ops
  constructor
  · intro lk o o2 h1 h2
    have e1 := mget_eq_some_of_mem hinv.1 h1
    have e2 := mget_eq_some_of_mem hinv.1 h2
    rw [e1] at e2
    exact Option.some.inj e2
  · intro o ho lk o2 he
    exact hinv.2 o ho (lk, o2) he

/-- Witness for the registry invariant after a full lock and a key lock
taken by the same transaction. -/
theorem lock_registry_exclusive_witness :
    mget (lockFold [LockOp.addFull 3, LockOp.addKey 3 1]) LKey.anyKey
        = some (Owner.txOwner 3)
    ∧ (LKey.key 1, Owner.txOwner 3) ∈ lockFold [LockOp.addFull 3, LockOp.addKey 3 1]
    ∧ Owner.txOwner 3 = Owner.txOwner 3 :=
  ⟨by decide, by decide,
   (lock_registry_exclusive [LockOp.addFull 3, LockOp.addKey 3 1]).2
     (Owner.txOwner 3) (by decide) (LKey.key 1) (Owner.txOwner 3) (by decide)⟩

end TxDict
